import Mathlib

/-!
Verification of the vertex-attribute quantization codec of the
quantization-perf-webgl2 repository.

The definitions below are shallow embeddings of the TypeScript sources
(src/quantize.ts, src/tangentEncoding.ts) and of the GLSL shader strings.
JavaScript numbers are modelled as exact rationals or reals; the bit-level
operations of the packers are modelled on natural numbers, where the
JavaScript `x & mask`, `x >> k`, `x << k`, `x | y` on non-negative integers
coincide with the corresponding operations on `Nat`.  Stores into a
`Uint16Array` reduce the value modulo 2^16; that reduction is written
explicitly (`% 65536`).
-/

namespace Quantize

/-- Model of `store4x12To3x16` (src/quantize.ts).  Packs four 12-bit values
into three 16-bit words; the final `% 65536` models the `Uint16Array`
stores. -/
def store4x12To3x16 (a b c d : ℕ) : ℕ × ℕ × ℕ :=
  -- First 16 bits: all of a (12 bits) and first 4 bits of b
  let first := (a &&& 0xFFF) ||| ((b &&& 0xF) <<< 12)
  -- Second 16 bits: last 8 bits of b and first 8 bits of c
  let second := ((b >>> 4) &&& 0xFF) ||| ((c &&& 0xFF) <<< 8)
  -- Third 16 bits: last 4 bits of c and all of d (12 bits)
  let third := ((c >>> 8) &&& 0xF) ||| ((d &&& 0xFFF) <<< 4)
  (first % 65536, second % 65536, third % 65536)

/-- Model of `load4x12From3x16` (src/quantize.ts).  Extracts four 12-bit
values from three 16-bit words. -/
def load4x12From3x16 (a b c : ℕ) : ℕ × ℕ × ℕ × ℕ :=
  (a &&& 0xFFF,
   ((a >>> 12) &&& 0xF) ||| ((b &&& 0xFF) <<< 4),
   ((b >>> 8) &&& 0xFF) ||| ((c &&& 0xF) <<< 8),
   (c >>> 4) &&& 0xFFF)

/-- Model of `store4x8To2x16` (src/quantize.ts).  Packs four 8-bit values
into two 16-bit words; the final `% 65536` models the `Uint16Array`
stores. -/
def store4x8To2x16 (a b c d : ℕ) : ℕ × ℕ :=
  let first := (a &&& 0xFF) ||| ((b &&& 0xFF) <<< 8)
  let second := (c &&& 0xFF) ||| ((d &&& 0xFF) <<< 8)
  (first % 65536, second % 65536)

/-- Model of `load4x8From2x16` (src/quantize.ts).  Extracts four 8-bit
values from two 16-bit words. -/
def load4x8From2x16 (a b : ℕ) : ℕ × ℕ × ℕ × ℕ :=
  (a &&& 0xFF, (a >>> 8) &&& 0xFF, b &&& 0xFF, (b >>> 8) &&& 0xFF)

/-- Truncation toward zero of a rational, as applied by the JavaScript
`| 0` operator (ToInt32) and by the integer conversion of a typed-array
store, for values of magnitude below 2^31. -/
def jsTruncQ (q : ℚ) : ℤ := if 0 ≤ q then ⌊q⌋ else ⌈q⌉

/-- Model of JavaScript `Math.round` on exact rationals: round half toward
positive infinity. -/
def jsRoundQ (q : ℚ) : ℤ := ⌊q + 1 / 2⌋

/-- Octahedral fold of quantizeMeshAngle16Bits (src/quantize.ts lines
82-91), on exact rationals.  The temporary variable of the source keeps the
pre-fold `octX` for the second component; that is reproduced here.  For the
zero vector the source would divide by zero (yielding NaN); in this
rational model `1 / 0 = 0`, which diverges from JavaScript only outside the
unit-normal input domain of the claims. -/
def octFold (nx ny nz : ℚ) : ℚ × ℚ :=
  let invL1Norm := 1 / (|nx| + |ny| + |nz|)
  let octX := nx * invL1Norm
  let octY := ny * invL1Norm
  if nz < 0 then
    ((1 - |octY|) * (if 0 ≤ octX then 1 else -1),
     (1 - |octX|) * (if 0 ≤ octY then 1 else -1))
  else
    (octX, octY)

/-- Word 4 of the packed record: `((octX * 0.5 + 0.5) * 65535) | 0` stored
into a `Uint16Array` (src/quantize.ts line 93). -/
def octWordX (nx ny nz : ℚ) : ℤ :=
  jsTruncQ (((octFold nx ny nz).1 * 0.5 + 0.5) * 65535) % 65536

/-- Word 5 of the packed record: `((octY * 0.5 + 0.5) * 65535) | 0` stored
into a `Uint16Array` (src/quantize.ts line 94). -/
def octWordY (nx ny nz : ℚ) : ℤ :=
  jsTruncQ (((octFold nx ny nz).2 * 0.5 + 0.5) * 65535) % 65536

/-- Model of the UV word: `(uv * 65535) | 0` stored into a `Uint16Array`
(src/quantize.ts lines 98-99 and 165-166). -/
def uvWord (u : ℚ) : ℤ := jsTruncQ (u * 65535) % 65536

/-- JavaScript number restricted to the values reachable by the position
quantization path: exact rationals extended with NaN and the two
infinities. -/
inductive JsNum where
  | fin : ℚ → JsNum
  | nan : JsNum
  | posInf : JsNum
  | negInf : JsNum
deriving DecidableEq

/-- Subtraction on JsNum, following IEEE/JavaScript special-value rules. -/
def jsSub : JsNum → JsNum → JsNum
  | .fin a, .fin b => .fin (a - b)
  | .nan, _ => .nan
  | _, .nan => .nan
  | .posInf, .posInf => .nan
  | .posInf, _ => .posInf
  | .negInf, .negInf => .nan
  | .negInf, _ => .negInf
  | .fin _, .posInf => .negInf
  | .fin _, .negInf => .posInf

/-- Division on JsNum.  Dividing a nonzero finite value by zero gives a
signed infinity and `0 / 0` gives NaN, as in JavaScript (the zero divisor
produced by a degenerate bounding-box axis is `+0`). -/
def jsDiv : JsNum → JsNum → JsNum
  | .fin a, .fin b =>
      if b = 0 then (if a = 0 then .nan else if 0 < a then .posInf else .negInf)
      else .fin (a / b)
  | .nan, _ => .nan
  | _, .nan => .nan
  | .posInf, .fin b => if 0 ≤ b then .posInf else .negInf
  | .negInf, .fin b => if 0 ≤ b then .negInf else .posInf
  | .fin _, .posInf => .fin 0
  | .fin _, .negInf => .fin 0
  | _, _ => .nan

/-- Multiplication on JsNum, following IEEE/JavaScript special-value
rules. -/
def jsMul : JsNum → JsNum → JsNum
  | .fin a, .fin b => .fin (a * b)
  | .nan, _ => .nan
  | _, .nan => .nan
  | .posInf, .fin b => if b = 0 then .nan else if 0 < b then .posInf else .negInf
  | .negInf, .fin b => if b = 0 then .nan else if 0 < b then .negInf else .posInf
  | .fin a, .posInf => if a = 0 then .nan else if 0 < a then .posInf else .negInf
  | .fin a, .negInf => if a = 0 then .nan else if 0 < a then .negInf else .posInf
  | .posInf, .posInf => .posInf
  | .posInf, .negInf => .negInf
  | .negInf, .posInf => .negInf
  | .negInf, .negInf => .posInf

/-- The ToUint16 conversion performed by a `Uint16Array` store: NaN and the
infinities map to 0, finite values are truncated toward zero and reduced
modulo 2^16. -/
def jsToUint16 : JsNum → ℤ
  | .fin q => jsTruncQ q % 65536
  | _ => 0

/-- One position word of the quantizer: `((p - min) / range) * 65535`
assigned to a `Uint16Array` slot, where `range = max - min`
(src/quantize.ts lines 50 and 58-66, identical in the quaternion variant at
lines 132 and 142-150). -/
def posWord (p pmin pmax : ℚ) : ℤ :=
  jsToUint16 (jsMul (jsDiv (jsSub (.fin p) (.fin pmin)) (.fin (pmax - pmin)))
    (.fin 65535))

/-- Position words of one axis for a whole mesh: the per-vertex loop of the
quantizer restricted to one coordinate. -/
def quantizePositionsAxis (ps : List ℚ) (pmin pmax : ℚ) : List ℤ :=
  ps.map (fun p => posWord p pmin pmax)

noncomputable section

/-- Vector of three real components, modelling a gl-matrix `vec3` in exact
real arithmetic. -/
structure V3 where
  x : ℝ
  y : ℝ
  z : ℝ

/-- Vector of four real components, modelling a gl-matrix `vec4`. -/
structure V4 where
  x : ℝ
  y : ℝ
  z : ℝ
  w : ℝ

/-- Quaternion with real components, modelling a gl-matrix `quat`
(x, y, z, w layout). -/
structure QuatR where
  x : ℝ
  y : ℝ
  z : ℝ
  w : ℝ

/-- Flat 3x3 matrix with the index layout m0..m8 used by gl-matrix. -/
structure Mat3R where
  m0 : ℝ
  m1 : ℝ
  m2 : ℝ
  m3 : ℝ
  m4 : ℝ
  m5 : ℝ
  m6 : ℝ
  m7 : ℝ
  m8 : ℝ

/-- Model of gl-matrix `vec3.cross`. -/
def cross (a b : V3) : V3 :=
  ⟨a.y * b.z - a.z * b.y, a.z * b.x - a.x * b.z, a.x * b.y - a.y * b.x⟩

/-- Model of gl-matrix `vec3.dot`. -/
def dot (a b : V3) : ℝ := a.x * b.x + a.y * b.y + a.z * b.z

/-- Model of gl-matrix `vec3.scale`. -/
def vscale (a : V3) (s : ℝ) : V3 := ⟨a.x * s, a.y * s, a.z * s⟩

/-- Model of gl-matrix `vec3.add`. -/
def vadd (a b : V3) : V3 := ⟨a.x + b.x, a.y + b.y, a.z + b.z⟩

/-- Model of gl-matrix componentwise `vec3.multiply`. -/
def vmulcw (a b : V3) : V3 := ⟨a.x * b.x, a.y * b.y, a.z * b.z⟩

/-- Model of gl-matrix `vec3.normalize`: when the squared length is zero
the vector is scaled by zero, exactly as in the source. -/
def vecNormalize (a : V3) : V3 :=
  let len := a.x * a.x + a.y * a.y + a.z * a.z
  let l := if 0 < len then 1 / Real.sqrt len else len
  ⟨a.x * l, a.y * l, a.z * l⟩

/-- Model of gl-matrix `quat.normalize` (vec4.normalize). -/
def quatNormalize (q : QuatR) : QuatR :=
  let len := q.x * q.x + q.y * q.y + q.z * q.z + q.w * q.w
  let l := if 0 < len then 1 / Real.sqrt len else len
  ⟨q.x * l, q.y * l, q.z * l, q.w * l⟩

/-- Model of gl-matrix `quat.scale`. -/
def quatScale (q : QuatR) (s : ℝ) : QuatR := ⟨q.x * s, q.y * s, q.z * s, q.w * s⟩

/-- Squared norm of a quaternion; used to state the unit-length claims. -/
def normSq (q : QuatR) : ℝ := q.x ^ 2 + q.y ^ 2 + q.z ^ 2 + q.w ^ 2

/-- Model of the `toMat3` helper of src/quantize.ts (writes the nine
entries in order). -/
def toMat3 (c00 c01 c02 c10 c11 c12 c20 c21 c22 : ℝ) : Mat3R :=
  ⟨c00, c01, c02, c10, c11, c12, c20, c21, c22⟩

/-- Model of gl-matrix `quat.fromMat3`.  The branch on the largest diagonal
element is expanded into the three possible values of the index `i`; within
each branch the assignments are the literal gl-matrix formulas.  `Real.sqrt`
of a negative argument is 0 where JavaScript would produce NaN; on the
rotation matrices reachable from the orthonormal inputs of the claims the
argument is non-negative, so the models agree there. -/
def fromMat3 (m : Mat3R) : QuatR :=
  let fTrace := m.m0 + m.m4 + m.m8
  if fTrace > 0 then
    let fRoot := Real.sqrt (fTrace + 1)
    let r := 0.5 / fRoot
    ⟨(m.m5 - m.m7) * r, (m.m6 - m.m2) * r, (m.m1 - m.m3) * r, 0.5 * fRoot⟩
  else if m.m4 > m.m0 then
    if m.m8 > m.m4 then
      -- i = 2, j = 0, k = 1
      let fRoot := Real.sqrt (m.m8 - m.m0 - m.m4 + 1)
      let r := 0.5 / fRoot
      ⟨(m.m2 + m.m6) * r, (m.m5 + m.m7) * r, 0.5 * fRoot, (m.m1 - m.m3) * r⟩
    else
      -- i = 1, j = 2, k = 0
      let fRoot := Real.sqrt (m.m4 - m.m8 - m.m0 + 1)
      let r := 0.5 / fRoot
      ⟨(m.m1 + m.m3) * r, 0.5 * fRoot, (m.m5 + m.m7) * r, (m.m6 - m.m2) * r⟩
  else
    if m.m8 > m.m0 then
      -- i = 2, j = 0, k = 1
      let fRoot := Real.sqrt (m.m8 - m.m0 - m.m4 + 1)
      let r := 0.5 / fRoot
      ⟨(m.m2 + m.m6) * r, (m.m5 + m.m7) * r, 0.5 * fRoot, (m.m1 - m.m3) * r⟩
    else
      -- i = 0, j = 1, k = 2
      let fRoot := Real.sqrt (m.m0 - m.m4 - m.m8 + 1)
      let r := 0.5 / fRoot
      ⟨0.5 * fRoot, (m.m1 + m.m3) * r, (m.m2 + m.m6) * r, (m.m5 - m.m7) * r⟩

/-- Model of JavaScript `Math.round` on reals: round half toward positive
infinity. -/
def jsRoundR (x : ℝ) : ℤ := ⌊x + 1 / 2⌋

/-- Model of `quantizeSignedFloat` (src/quantize.ts): map a float in [-1,1]
to an integer with the given number of bits. -/
def quantizeSignedFloat (value : ℝ) (bits : ℕ) : ℤ :=
  let maxValue : ℕ := (1 <<< bits) - 1
  jsRoundR ((value * 0.5 + 0.5) * (maxValue : ℝ))

/-- Model of `unquantizeSignedFloat` (src/quantize.ts). -/
def unquantizeSignedFloat (value : ℝ) (bits : ℕ) : ℝ :=
  let maxValue : ℕ := (1 <<< bits) - 1
  (value / (maxValue : ℝ)) * 2.0 - 1.0

/-- Model of `encodeQTangent` (src/quantize.ts lines 329-366): build the
tangent-bitangent-normal matrix, convert to a quaternion, normalize, make
w non-negative, apply the zero-w bias clamp, and flip the sign when the
frame encodes a reflection. -/
def encodeQTangent (n t : V3) (t3 : ℝ) (numStorageBits : ℕ) : QuatR :=
  let c := cross n t
  let mat := toMat3 t.x t.y t.z c.x c.y c.z n.x n.y n.z
  let q1 := quatNormalize (fromMat3 mat)
  let q2 := if q1.w < 0 then quatScale q1 (-1) else q1
  let bias : ℝ := 1 / (((1 <<< (numStorageBits - 1)) - 1 : ℕ) : ℝ)
  let q3 := if q2.w < bias then
      let factor := Real.sqrt (1.0 - bias * bias)
      ⟨q2.x * factor, q2.y * factor, q2.z * factor, bias⟩
    else q2
  let b := if t3 > 0 then cross t n else cross n t
  let cc := cross t n
  if dot cc b < 0 then quatScale q3 (-1) else q3

/-- Intermediate value of `encodeQTangent` after the normalize and
make-w-non-negative steps, before the bias clamp; used to state the
amended unit-length claim. -/
def encodeQTangentPreClamp (n t : V3) : QuatR :=
  let c := cross n t
  let mat := toMat3 t.x t.y t.z c.x c.y c.z n.x n.y n.z
  let q1 := quatNormalize (fromMat3 mat)
  if q1.w < 0 then quatScale q1 (-1) else q1

/-- Model of `packQuaternion12BitsTo16Bits` (src/quantize.ts).  The signed
integers produced by `quantizeSignedFloat` are handed to the bit packer;
`(z % 4096).toNat` is the value of the packer's first masking operation
`z & 0xFFF` on a (possibly negative) integer, so composing it with the
Nat-level packer is exact. -/
def packQuaternion12BitsTo16Bits (a b c d : ℝ) : ℕ × ℕ × ℕ :=
  let q0 := quantizeSignedFloat a 12
  let q1 := quantizeSignedFloat b 12
  let q2 := quantizeSignedFloat c 12
  let q3 := quantizeSignedFloat d 12
  store4x12To3x16 (q0 % 4096).toNat (q1 % 4096).toNat (q2 % 4096).toNat
    (q3 % 4096).toNat

/-- Model of `encodeQuaternion12Bits` (src/quantize.ts): encode the frame
quaternion with 12 storage bits and pack it into three 16-bit words. -/
def encodeQuaternion12Bits (n t : V3) (t3 : ℝ) : ℕ × ℕ × ℕ :=
  let q := encodeQTangent n t t3 12
  packQuaternion12BitsTo16Bits q.x q.y q.z q.w

/-- Model of `unpackQuaternion12Bits` (src/quantize.ts): unpack the three
words, unquantize each component and normalize. -/
def unpackQuaternion12Bits (a b c : ℕ) : QuatR :=
  let v := load4x12From3x16 a b c
  quatNormalize
    ⟨unquantizeSignedFloat (v.1 : ℝ) 12,
     unquantizeSignedFloat (v.2.1 : ℝ) 12,
     unquantizeSignedFloat (v.2.2.1 : ℝ) 12,
     unquantizeSignedFloat (v.2.2.2 : ℝ) 12⟩

/-- Model of `toNormal` (src/quantize.ts) with the constant vectors F0, F1,
F2 of `TempVars`. -/
def toNormal (q : QuatR) : V3 :=
  let n1 := vmulcw (vscale ⟨2, -2, -2⟩ q.x) ⟨q.z, q.w, q.x⟩
  let n2 := vmulcw (vscale ⟨2, 2, -2⟩ q.y) ⟨q.w, q.z, q.y⟩
  vadd (vadd ⟨0, 0, 1⟩ n1) n2

/-- Model of `decodeQTangent` (src/quantize.ts lines 427-444), with the
constant vectors Q0, Q1, Q2 of `TempVars`: reconstruct the normal and the
tangent, and recover the handedness as the sign of q.w. -/
def decodeQTangent (q : QuatR) : V3 × V4 :=
  let n := toNormal q
  let t1 := vmulcw (vscale ⟨-2, 2, -2⟩ q.y) ⟨q.y, q.x, q.w⟩
  let t2 := vmulcw (vscale ⟨-2, 2, 2⟩ q.z) ⟨q.z, q.w, q.x⟩
  let t := vadd (vadd ⟨1, 0, 0⟩ t1) t2
  (n, ⟨t.x, t.y, t.z, if q.w > 0 then 1 else -1⟩)

/-- Model of `decodeQuaternion12Bits` (src/quantize.ts). -/
def decodeQuaternion12Bits (w0 w1 w2 : ℕ) : V3 × V4 :=
  decodeQTangent (unpackQuaternion12Bits w0 w1 w2)

/-- Bias clamp step of `encodeQTangent`: when w is below the bias for the
given storage width, set w to the bias and rescale (x,y,z) by
sqrt(1 - bias^2). -/
def clampStep (q : QuatR) (bits : ℕ) : QuatR :=
  let bias : ℝ := 1 / (((1 <<< (bits - 1)) - 1 : ℕ) : ℝ)
  if q.w < bias then
    let factor := Real.sqrt (1.0 - bias * bias)
    ⟨q.x * factor, q.y * factor, q.z * factor, bias⟩
  else q

/-- Unit normal used as concrete input for the bias-clamp analysis. -/
def nC7 : V3 := ⟨0, 0, 1⟩

/-- Unit tangent (cos alpha, sin alpha, 0) for an angle alpha just below pi,
chosen so that the frame quaternion has 0 < w < bias; both components are
exact rationals from a Pythagorean triple. -/
def tC7 : V3 :=
  ⟨-70300024709119 / 70300058247169, 68669153280 / 70300058247169, 0⟩

/-- Model of JavaScript `Math.atan2 y x`: the angle of the point (x, y) in
(-pi, pi], following the ECMAScript case analysis (atan2 of (0,0) is 0;
signed zeros are collapsed, which only matters on a measure-zero set the
claims do not depend on). -/
def atan2R (y x : ℝ) : ℝ :=
  if x > 0 then Real.arctan (y / x)
  else if x < 0 then
    (if y ≥ 0 then Real.arctan (y / x) + Real.pi
     else Real.arctan (y / x) - Real.pi)
  else
    (if y > 0 then Real.pi / 2 else if y < 0 then -(Real.pi / 2) else 0)

/-- Truncation toward zero of a real, modelling the integer conversion of
JavaScript bitwise operators on numbers of magnitude below 2^31. -/
def jsTruncR (q : ℝ) : ℤ := if 0 ≤ q then ⌊q⌋ else ⌈q⌉

/-- Model of the JavaScript remainder operator `%` on numbers: truncated
division remainder (sign of the dividend). -/
def jsFmod (a b : ℝ) : ℝ := a - b * (jsTruncR (a / b) : ℝ)

/-- Model of `encodeTangent` (src/tangentEncoding.ts lines 9-44):
quantized angle in bits 0-14, sign in bit 15.  `(z % 32768).toNat` is the
value of `z & 0x7FFF` on a signed integer of magnitude below 2^31. -/
def encodeTangent (normal tangent : V3) (tangentSign : ℝ) : ℕ :=
  let normalCopy := vecNormalize normal
  let tangentCopy := vecNormalize tangent
  let tempVec : V3 := if |normalCopy.x| < 0.9 then ⟨1, 0, 0⟩ else ⟨0, 1, 0⟩
  let bitangent := vecNormalize (cross normalCopy tempVec)
  let cosAngle := dot tangentCopy bitangent
  let sinAngle := dot (cross bitangent tangentCopy) normalCopy
  let angle := atan2R sinAngle cosAngle
  let normalizedAngle := (angle + Real.pi) / (2 * Real.pi)
  let quantizedAngle := ((jsRoundR (normalizedAngle * 32767)) % 32768).toNat
  let sign : ℕ := if tangentSign > 0 then 1 else 0
  (sign <<< 15) ||| quantizedAngle

/-- Model of `decodeTangentOriginal` (src/tangentEncoding.ts lines
118-153): exact-trig decode; returns the tangent and the raw sign bit. -/
def decodeTangentOriginal (encoded : ℕ) (normal : V3) : V3 × ℕ :=
  let normalCopy := vecNormalize normal
  let sign := (encoded >>> 15) &&& 1
  let quantizedAngle := encoded &&& 0x7FFF
  let angle := ((quantizedAngle : ℕ) : ℝ) / 32767 * (2 * Real.pi) - Real.pi
  let tempVec : V3 := if |normalCopy.x| < 0.9 then ⟨1, 0, 0⟩ else ⟨0, 1, 0⟩
  let bitangent := vecNormalize (cross normalCopy tempVec)
  let cosAngle := Real.cos angle
  let sinAngle := Real.sin angle
  let tangent := vecNormalize (vadd (vscale bitangent cosAngle)
    (vscale (cross normalCopy bitangent) sinAngle))
  (tangent, sign)

/-- Model of `decodeAngleAsTangent16` (the copy of the decoder whose file
name is unknown, src/unnamed/part_004 lines 486-521): identical to
`decodeTangentOriginal` except that the sign is returned as
`((encoded >> 15) & 1) * 2 - 1`, a value in {+1, -1}. -/
def decodeAngleAsTangent16 (encoded : ℕ) (normal : V3) : V3 × ℤ :=
  let normalCopy := vecNormalize normal
  let sign : ℤ := (((encoded >>> 15) &&& 1 : ℕ) : ℤ) * 2 - 1
  let quantizedAngle := encoded &&& 0x7FFF
  let angle := ((quantizedAngle : ℕ) : ℝ) / 32767 * (2 * Real.pi) - Real.pi
  let tempVec : V3 := if |normalCopy.x| < 0.9 then ⟨1, 0, 0⟩ else ⟨0, 1, 0⟩
  let bitangent := vecNormalize (cross normalCopy tempVec)
  let cosAngle := Real.cos angle
  let sinAngle := Real.sin angle
  let tangent := vecNormalize (vadd (vscale bitangent cosAngle)
    (vscale (cross normalCopy bitangent) sinAngle))
  (tangent, sign)

/-- Shader constant `inv32767 = 1.0 / 32767.0` of the quantized vertex
shader string. -/
def inv32767 : ℝ := 1.0 / 32767.0

/-- Shader macro `PI`, written in the source as the decimal literal
3.14159265359.  At the float32 precision the shader executes with, that
literal and the mathematical constant round to the same float (0x40490FDB),
so the idealized real model identifies the macro with pi itself; the same
applies to TWO_PI and HALF_PI. -/
def shaderPI : ℝ := Real.pi

/-- Shader macro `TWO_PI` (see `shaderPI` for the constant modelling). -/
def shaderTwoPI : ℝ := 2 * Real.pi

/-- Model of the GLSL `decodeTangentTrig` of the quantized vertex shader
(exact-trig shading-stage decoder): same bitangent construction, angle
reconstruction and rotation formula as the host decoder, on the raw normal
attribute. -/
def decodeTangentTrig (encoded : ℕ) (normal : V3) : V3 :=
  let quantizedAngle := ((encoded &&& 0x7FFF : ℕ) : ℝ)
  let angle := quantizedAngle * inv32767 * shaderTwoPI - shaderPI
  let tempVec : V3 := if |normal.x| < 0.9 then ⟨1, 0, 0⟩ else ⟨0, 1, 0⟩
  let bitangent := vecNormalize (cross normal tempVec)
  let cosAngle := Real.cos angle
  let sinAngle := Real.sin angle
  vecNormalize (vadd (vscale bitangent cosAngle)
    (vscale (cross normal bitangent) sinAngle))

/-- Model of `fastSin` (src/tangentEncoding.ts lines 50-65): wrap the
argument to [-pi, pi] with the JavaScript remainder, then evaluate the
7th-order odd polynomial with the source's rounded Taylor coefficients. -/
def fastSin (x : ℝ) : ℝ :=
  let xw0 := jsFmod x (2 * Real.pi)
  let xw := if xw0 > Real.pi then xw0 - 2 * Real.pi
    else if xw0 < -Real.pi then xw0 + 2 * Real.pi else xw0
  let a3 : ℝ := -0.16666667
  let a5 : ℝ := 0.008333333
  let a7 : ℝ := -0.000198413
  let x2 := xw * xw
  let x3 := x2 * xw
  xw + a3 * x3 + a5 * x3 * x2 + a7 * x3 * x2 * x2

/-- Model of `fastCos` (src/tangentEncoding.ts lines 71-73): phase-shifted
`fastSin`. -/
def fastCos (x : ℝ) : ℝ := fastSin (x + Real.pi / 2)

end

theorem and_mask_eq_mod (x k : ℕ) : x &&& (2 ^ k - 1) = x % 2 ^ k :=
  Nat.and_pow_two_sub_one_eq_mod x k

theorem lor_shiftLeft_eq_add (x y k : ℕ) (h : x < 2 ^ k) :
    x ||| (y <<< k) = x + y * 2 ^ k := by
  rw [Nat.shiftLeft_eq, Nat.lor_comm, mul_comm, ← Nat.mul_add_lt_is_or h y]
  omega

/-- Arithmetic form of the three packed words of `store4x12To3x16`. -/
theorem store4x12_arith (a b c d : ℕ) :
    store4x12To3x16 a b c d =
      ((a % 4096 + b % 16 * 4096) % 65536,
       (b / 16 % 256 + c % 256 * 256) % 65536,
       (c / 256 % 16 + d % 4096 * 16) % 65536) := by
  have h1 : a &&& 0xFFF = a % 4096 := by
    have := and_mask_eq_mod a 12; norm_num at this; simpa using this
  have h2 : b &&& 0xF = b % 16 := by
    have := and_mask_eq_mod b 4; norm_num at this; simpa using this
  have h3 : (b >>> 4) &&& 0xFF = b / 16 % 256 := by
    have e : (0xFF : ℕ) = 2 ^ 8 - 1 := rfl
    rw [e, and_mask_eq_mod, Nat.shiftRight_eq_div_pow]
    norm_num
  have h4 : c &&& 0xFF = c % 256 := by
    have := and_mask_eq_mod c 8; norm_num at this; simpa using this
  have h5 : (c >>> 8) &&& 0xF = c / 256 % 16 := by
    have e : (0xF : ℕ) = 2 ^ 4 - 1 := rfl
    rw [e, and_mask_eq_mod, Nat.shiftRight_eq_div_pow]
    norm_num
  have h6 : d &&& 0xFFF = d % 4096 := by
    have := and_mask_eq_mod d 12; norm_num at this; simpa using this
  have e1 : (a &&& 0xFFF) ||| ((b &&& 0xF) <<< 12) = a % 4096 + b % 16 * 4096 := by
    rw [h1, h2, lor_shiftLeft_eq_add _ _ _ (by omega : a % 4096 < 2 ^ 12)]
    norm_num
  have e2 : ((b >>> 4) &&& 0xFF) ||| ((c &&& 0xFF) <<< 8)
      = b / 16 % 256 + c % 256 * 256 := by
    rw [h3, h4, lor_shiftLeft_eq_add _ _ _ (by omega : b / 16 % 256 < 2 ^ 8)]
    norm_num
  have e3 : ((c >>> 8) &&& 0xF) ||| ((d &&& 0xFFF) <<< 4)
      = c / 256 % 16 + d % 4096 * 16 := by
    rw [h5, h6, lor_shiftLeft_eq_add _ _ _ (by omega : c / 256 % 16 < 2 ^ 4)]
    norm_num
  simp only [store4x12To3x16, e1, e2, e3]

/-- Arithmetic form of the four values of `load4x12From3x16`. -/
theorem load4x12_arith (a b c : ℕ) :
    load4x12From3x16 a b c =
      (a % 4096,
       a / 4096 % 16 + b % 256 * 16,
       b / 256 % 256 + c % 16 * 256,
       c / 16 % 4096) := by
  have h1 : a &&& 0xFFF = a % 4096 := by
    have := and_mask_eq_mod a 12; norm_num at this; simpa using this
  have h2 : (a >>> 12) &&& 0xF = a / 4096 % 16 := by
    have e : (0xF : ℕ) = 2 ^ 4 - 1 := rfl
    rw [e, and_mask_eq_mod, Nat.shiftRight_eq_div_pow]
    norm_num
  have h3 : b &&& 0xFF = b % 256 := by
    have := and_mask_eq_mod b 8; norm_num at this; simpa using this
  have h4 : (b >>> 8) &&& 0xFF = b / 256 % 256 := by
    have e : (0xFF : ℕ) = 2 ^ 8 - 1 := rfl
    rw [e, and_mask_eq_mod, Nat.shiftRight_eq_div_pow]
    norm_num
  have h5 : c &&& 0xF = c % 16 := by
    have := and_mask_eq_mod c 4; norm_num at this; simpa using this
  have h6 : (c >>> 4) &&& 0xFFF = c / 16 % 4096 := by
    have e : (0xFFF : ℕ) = 2 ^ 12 - 1 := rfl
    rw [e, and_mask_eq_mod, Nat.shiftRight_eq_div_pow]
    norm_num
  have e1 : ((a >>> 12) &&& 0xF) ||| ((b &&& 0xFF) <<< 4)
      = a / 4096 % 16 + b % 256 * 16 := by
    rw [h2, h3, lor_shiftLeft_eq_add _ _ _ (by omega : a / 4096 % 16 < 2 ^ 4)]
    norm_num
  have e2 : ((b >>> 8) &&& 0xFF) ||| ((c &&& 0xF) <<< 8)
      = b / 256 % 256 + c % 16 * 256 := by
    rw [h4, h5, lor_shiftLeft_eq_add _ _ _ (by omega : b / 256 % 256 < 2 ^ 8)]
    norm_num
  simp only [load4x12From3x16, h1, h6, e1, e2]

/-- Round-trip of the 12-bit packer for arbitrary natural inputs: each
component comes back reduced modulo 2^12. -/
theorem load4x12_store4x12 (a b c d : ℕ) :
    (let w := store4x12To3x16 a b c d
     load4x12From3x16 w.1 w.2.1 w.2.2) =
      (a % 4096, b % 4096, c % 4096, d % 4096) := by
  simp only [store4x12_arith, load4x12_arith]
  refine Prod.ext ?_ (Prod.ext ?_ (Prod.ext ?_ ?_)) <;> simp only <;> omega

/-- Arithmetic form of the two packed words of `store4x8To2x16`. -/
theorem store4x8_arith (a b c d : ℕ) :
    store4x8To2x16 a b c d =
      ((a % 256 + b % 256 * 256) % 65536, (c % 256 + d % 256 * 256) % 65536) := by
  have h1 : a &&& 0xFF = a % 256 := by
    have := and_mask_eq_mod a 8; norm_num at this; simpa using this
  have h2 : b &&& 0xFF = b % 256 := by
    have := and_mask_eq_mod b 8; norm_num at this; simpa using this
  have h3 : c &&& 0xFF = c % 256 := by
    have := and_mask_eq_mod c 8; norm_num at this; simpa using this
  have h4 : d &&& 0xFF = d % 256 := by
    have := and_mask_eq_mod d 8; norm_num at this; simpa using this
  have e1 : (a &&& 0xFF) ||| ((b &&& 0xFF) <<< 8) = a % 256 + b % 256 * 256 := by
    rw [h1, h2, lor_shiftLeft_eq_add _ _ _ (by omega : a % 256 < 2 ^ 8)]
    norm_num
  have e2 : (c &&& 0xFF) ||| ((d &&& 0xFF) <<< 8) = c % 256 + d % 256 * 256 := by
    rw [h3, h4, lor_shiftLeft_eq_add _ _ _ (by omega : c % 256 < 2 ^ 8)]
    norm_num
  simp only [store4x8To2x16, e1, e2]

/-- Arithmetic form of the four values of `load4x8From2x16`. -/
theorem load4x8_arith (a b : ℕ) :
    load4x8From2x16 a b = (a % 256, a / 256 % 256, b % 256, b / 256 % 256) := by
  have h1 : a &&& 0xFF = a % 256 := by
    have := and_mask_eq_mod a 8; norm_num at this; simpa using this
  have h2 : (a >>> 8) &&& 0xFF = a / 256 % 256 := by
    have e : (0xFF : ℕ) = 2 ^ 8 - 1 := rfl
    rw [e, and_mask_eq_mod, Nat.shiftRight_eq_div_pow]
    norm_num
  have h3 : b &&& 0xFF = b % 256 := by
    have := and_mask_eq_mod b 8; norm_num at this; simpa using this
  have h4 : (b >>> 8) &&& 0xFF = b / 256 % 256 := by
    have e : (0xFF : ℕ) = 2 ^ 8 - 1 := rfl
    rw [e, and_mask_eq_mod, Nat.shiftRight_eq_div_pow]
    norm_num
  simp only [load4x8From2x16, h1, h2, h3, h4]

/-- Round-trip of the 8-bit packer for arbitrary natural inputs: each
component comes back reduced modulo 2^8. -/
theorem load4x8_store4x8 (a b c d : ℕ) :
    (let w := store4x8To2x16 a b c d
     load4x8From2x16 w.1 w.2) =
      (a % 256, b % 256, c % 256, d % 256) := by
  simp only [store4x8_arith, load4x8_arith]
  refine Prod.ext ?_ (Prod.ext ?_ (Prod.ext ?_ ?_)) <;> simp only <;> omega

/-- C1: BitPacker round-trip is bit-exact: for every 4-tuple of integers in
[0, 4095], `load4x12From3x16` inverts `store4x12To3x16` exactly, and for
every 4-tuple in [0, 255], `load4x8From2x16` inverts `store4x8To2x16`
exactly. -/
theorem C1_bitpacker_roundtrip_exact :
    (∀ a b c d : ℕ, a < 4096 → b < 4096 → c < 4096 → d < 4096 →
      (let w := store4x12To3x16 a b c d
       load4x12From3x16 w.1 w.2.1 w.2.2) = (a, b, c, d)) ∧
    (∀ a b c d : ℕ, a < 256 → b < 256 → c < 256 → d < 256 →
      (let w := store4x8To2x16 a b c d
       load4x8From2x16 w.1 w.2) = (a, b, c, d)) := by
  constructor
  · intro a b c d ha hb hc hd
    rw [load4x12_store4x12]
    simp [Nat.mod_eq_of_lt, ha, hb, hc, hd]
  · intro a b c d ha hb hc hd
    rw [load4x8_store4x8]
    simp [Nat.mod_eq_of_lt, ha, hb, hc, hd]

/-- Witness for C1 at concrete in-range inputs. -/
theorem C1_witness :
    (let w := store4x12To3x16 1 2 3 4095
     load4x12From3x16 w.1 w.2.1 w.2.2) = (1, 2, 3, 4095) ∧
    (let w := store4x8To2x16 5 6 7 255
     load4x8From2x16 w.1 w.2) = (5, 6, 7, 255) :=
  ⟨C1_bitpacker_roundtrip_exact.1 1 2 3 4095 (by decide) (by decide) (by decide)
      (by decide),
   C1_bitpacker_roundtrip_exact.2 5 6 7 255 (by decide) (by decide) (by decide)
      (by decide)⟩

/-- C10: the bit packers mask out-of-range inputs: for every 4-tuple of
non-negative integers, the round-trip of the 12-bit packer returns the
inputs reduced modulo 2^12, and the round-trip of the 8-bit packer returns
them reduced modulo 2^8. -/
theorem C10_bitpacker_masks_out_of_range :
    (∀ a b c d : ℕ,
      (let w := store4x12To3x16 a b c d
       load4x12From3x16 w.1 w.2.1 w.2.2) =
        (a % 2 ^ 12, b % 2 ^ 12, c % 2 ^ 12, d % 2 ^ 12)) ∧
    (∀ a b c d : ℕ,
      (let w := store4x8To2x16 a b c d
       load4x8From2x16 w.1 w.2) = (a % 2 ^ 8, b % 2 ^ 8, c % 2 ^ 8, d % 2 ^ 8)) := by
  refine ⟨fun a b c d => ?_, fun a b c d => ?_⟩
  · rw [load4x12_store4x12]; norm_num
  · rw [load4x8_store4x8]; norm_num

theorem posWord_degenerate (p m : ℚ) : posWord p m m = 0 := by
  unfold posWord
  have hr : m - m = 0 := by ring
  rw [hr]
  rcases lt_trichotomy (p - m) 0 with h | h | h
  · simp [jsSub, jsDiv, jsMul, jsToUint16, h.ne, not_lt.mpr h.le,
      (by norm_num : ¬(0:ℚ) < -1)]
  · simp [jsSub, jsDiv, jsMul, jsToUint16, h]
  · simp [jsSub, jsDiv, jsMul, jsToUint16, h.ne.symm, h]

/-- C6: a degenerate bounding-box axis (min equal to max) makes the
position quantizer write word value 0 for that axis on every vertex; the
division by the zero range produces NaN or a signed infinity, and the
Uint16Array store maps those to 0. -/
theorem C6_degenerate_bbox_axis_words_zero (ps : List ℚ) (pmin pmax : ℚ)
    (h : pmin = pmax) :
    quantizePositionsAxis ps pmin pmax = List.replicate ps.length 0 := by
  subst h
  induction ps with
  | nil => rfl
  | cons p ps ih =>
      simp only [quantizePositionsAxis, List.map_cons, List.length_cons,
        List.replicate_succ, posWord_degenerate] at ih ⊢
      exact List.cons_eq_cons.mpr ⟨rfl, ih⟩

/-- Witness for C6 on a concrete three-vertex axis with min = max. -/
theorem C6_witness :
    quantizePositionsAxis [1, 2, 3] 5 5 = List.replicate ([1, 2, 3] : List ℚ).length 0 :=
  C6_degenerate_bbox_axis_words_zero [1, 2, 3] 5 5 rfl

theorem abs_le_one_of_sq (a : ℚ) (h : a ^ 2 ≤ 1) : |a| ≤ 1 := by
  nlinarith [sq_abs a, abs_nonneg a, sq_nonneg (|a| - 1)]

theorem one_le_l1_of_unit (nx ny nz : ℚ)
    (hunit : nx ^ 2 + ny ^ 2 + nz ^ 2 = 1) : 1 ≤ |nx| + |ny| + |nz| := by
  have hx : |nx| ≤ 1 := abs_le_one_of_sq nx (by nlinarith [sq_nonneg ny, sq_nonneg nz])
  have hy : |ny| ≤ 1 := abs_le_one_of_sq ny (by nlinarith [sq_nonneg nx, sq_nonneg nz])
  have hz : |nz| ≤ 1 := abs_le_one_of_sq nz (by nlinarith [sq_nonneg nx, sq_nonneg ny])
  have tx : |nx| ^ 2 ≤ |nx| := by nlinarith [abs_nonneg nx]
  have ty : |ny| ^ 2 ≤ |ny| := by nlinarith [abs_nonneg ny]
  have tz : |nz| ^ 2 ≤ |nz| := by nlinarith [abs_nonneg nz]
  have sx := sq_abs nx
  have sy := sq_abs ny
  have sz := sq_abs nz
  linarith

theorem floorQ_eq (q : ℚ) (z : ℤ) (h1 : (z : ℚ) ≤ q) (h2 : q < z + 1) : ⌊q⌋ = z :=
  Int.floor_eq_iff.mpr ⟨h1, h2⟩

theorem octFold_bounds (nx ny nz : ℚ) (h : 1 ≤ |nx| + |ny| + |nz|) :
    -1 ≤ (octFold nx ny nz).1 ∧ (octFold nx ny nz).1 ≤ 1 ∧
    -1 ≤ (octFold nx ny nz).2 ∧ (octFold nx ny nz).2 ≤ 1 := by
  have hden : (0 : ℚ) < |nx| + |ny| + |nz| := by linarith
  have hxb : |nx * (1 / (|nx| + |ny| + |nz|))| ≤ 1 := by
    rw [mul_one_div, abs_div, abs_of_pos hden, div_le_one hden]
    linarith [abs_nonneg ny, abs_nonneg nz]
  have hyb : |ny * (1 / (|nx| + |ny| + |nz|))| ≤ 1 := by
    rw [mul_one_div, abs_div, abs_of_pos hden, div_le_one hden]
    linarith [abs_nonneg nx, abs_nonneg nz]
  simp only [octFold]
  split_ifs with hnz hsx hsy hsy <;>
    refine ⟨?_, ?_, ?_, ?_⟩ <;> dsimp only <;>
    linarith [hxb, hyb, (abs_le.mp hxb).1, (abs_le.mp hxb).2,
      (abs_le.mp hyb).1, (abs_le.mp hyb).2,
      abs_nonneg (nx * (1 / (|nx| + |ny| + |nz|))),
      abs_nonneg (ny * (1 / (|nx| + |ny| + |nz|)))]

theorem word_of_bounded (v : ℚ) (h1 : -1 ≤ v) (h2 : v ≤ 1) :
    jsTruncQ ((v * 0.5 + 0.5) * 65535) % 65536 = ⌊(v * 0.5 + 0.5) * 65535⌋ ∧
    0 ≤ ⌊(v * 0.5 + 0.5) * 65535⌋ ∧ ⌊(v * 0.5 + 0.5) * 65535⌋ ≤ 65535 := by
  have hm0 : 0 ≤ (v * 0.5 + 0.5) * 65535 := by nlinarith
  have hm1 : (v * 0.5 + 0.5) * 65535 ≤ 65535 := by nlinarith
  have htr : jsTruncQ ((v * 0.5 + 0.5) * 65535) = ⌊(v * 0.5 + 0.5) * 65535⌋ := by
    simp [jsTruncQ, hm0]
  have hf0 : 0 ≤ ⌊(v * 0.5 + 0.5) * 65535⌋ := Int.floor_nonneg.mpr hm0
  have hf1 : ⌊(v * 0.5 + 0.5) * 65535⌋ ≤ 65535 := by
    calc ⌊(v * 0.5 + 0.5) * 65535⌋ ≤ ⌊(65535 : ℚ)⌋ := Int.floor_le_floor hm1
    _ = 65535 := by norm_num
  exact ⟨by rw [htr]; exact Int.emod_eq_of_lt hf0 (by omega), hf0, hf1⟩

/-- C4 counterexample: at the exactly-unit normal (3/13, 4/13, 12/13) the
stored second octahedral word is the truncation 39665, while
round((v*0.5+0.5)*65535) is 39666, so the stored word is not the rounded
value. -/
theorem C4_counterexample :
    (3 / 13 : ℚ) ^ 2 + (4 / 13 : ℚ) ^ 2 + (12 / 13 : ℚ) ^ 2 = 1 ∧
    octWordY (3 / 13) (4 / 13) (12 / 13) ≠
      jsRoundQ (((octFold (3 / 13) (4 / 13) (12 / 13)).2 * 0.5 + 0.5) * 65535) := by
  have hfold : octFold (3 / 13) (4 / 13) (12 / 13) = (3 / 19, 4 / 19) := by
    simp only [octFold]
    rw [if_neg (by norm_num : ¬(12 / 13 : ℚ) < 0)]
    norm_num [abs_of_nonneg]
  have hfy : (octFold (3 / 13) (4 / 13) (12 / 13)).2 = 4 / 19 := by rw [hfold]
  constructor
  · norm_num
  · rw [octWordY, hfy]
    rw [show ((4 : ℚ) / 19 * 0.5 + 0.5) * 65535 = 1507305 / 38 by norm_num]
    rw [jsTruncQ, if_pos (by norm_num : (0 : ℚ) ≤ 1507305 / 38)]
    rw [jsRoundQ]
    rw [floorQ_eq (1507305 / 38 : ℚ) 39665 (by norm_num) (by norm_num)]
    rw [floorQ_eq ((1507305 / 38 : ℚ) + 1 / 2) 39666 (by norm_num) (by norm_num)]
    norm_num

/-- C4 amended: for every unit normal the folded octahedral components lie
in [-1, 1] and the stored 16-bit words equal the truncation
floor((v*0.5+0.5)*65535) of the affine map (not the rounding), and they lie
in [0, 65535]. -/
theorem C4_amended_oct_words_floor (nx ny nz : ℚ)
    (hunit : nx ^ 2 + ny ^ 2 + nz ^ 2 = 1) :
    (-1 ≤ (octFold nx ny nz).1 ∧ (octFold nx ny nz).1 ≤ 1 ∧
     -1 ≤ (octFold nx ny nz).2 ∧ (octFold nx ny nz).2 ≤ 1) ∧
    octWordX nx ny nz = ⌊((octFold nx ny nz).1 * 0.5 + 0.5) * 65535⌋ ∧
    octWordY nx ny nz = ⌊((octFold nx ny nz).2 * 0.5 + 0.5) * 65535⌋ ∧
    0 ≤ octWordX nx ny nz ∧ octWordX nx ny nz ≤ 65535 ∧
    0 ≤ octWordY nx ny nz ∧ octWordY nx ny nz ≤ 65535 := by
  have hb := octFold_bounds nx ny nz (one_le_l1_of_unit nx ny nz hunit)
  obtain ⟨b1, b2, b3, b4⟩ := hb
  have wx := word_of_bounded (octFold nx ny nz).1 b1 b2
  have wy := word_of_bounded (octFold nx ny nz).2 b3 b4
  refine ⟨⟨b1, b2, b3, b4⟩, ?_, ?_, ?_, ?_, ?_, ?_⟩
  · rw [octWordX]; exact wx.1
  · rw [octWordY]; exact wy.1
  · rw [octWordX, wx.1]; exact wx.2.1
  · rw [octWordX, wx.1]; exact wx.2.2
  · rw [octWordY, wy.1]; exact wy.2.1
  · rw [octWordY, wy.1]; exact wy.2.2

/-- Witness for the amended C4 at the concrete unit normal (0, 0, 1). -/
theorem C4_witness :
    (-1 ≤ (octFold 0 0 1).1 ∧ (octFold 0 0 1).1 ≤ 1 ∧
     -1 ≤ (octFold 0 0 1).2 ∧ (octFold 0 0 1).2 ≤ 1) ∧
    octWordX 0 0 1 = ⌊((octFold 0 0 1).1 * 0.5 + 0.5) * 65535⌋ ∧
    octWordY 0 0 1 = ⌊((octFold 0 0 1).2 * 0.5 + 0.5) * 65535⌋ ∧
    0 ≤ octWordX 0 0 1 ∧ octWordX 0 0 1 ≤ 65535 ∧
    0 ≤ octWordY 0 0 1 ∧ octWordY 0 0 1 ≤ 65535 :=
  C4_amended_oct_words_floor 0 0 1 (by norm_num)

/-- C5 counterexample: for the out-of-range UV component u = 3/2 the stored
word is 32766 (truncation of 98302.5 wrapped modulo 2^16), not
round(clamp(u,0,1)*65535) = 65535: the quantizer wraps instead of
clamping. -/
theorem C5_counterexample :
    uvWord (3 / 2) ≠ jsRoundQ (min (max (3 / 2 : ℚ) 0) 1 * 65535) := by
  rw [uvWord]
  rw [show ((3 : ℚ) / 2 * 65535) = 196605 / 2 by norm_num]
  rw [jsTruncQ, if_pos (by norm_num : (0 : ℚ) ≤ 196605 / 2)]
  rw [floorQ_eq (196605 / 2 : ℚ) 98302 (by norm_num) (by norm_num)]
  rw [show min (max (3 / 2 : ℚ) 0) 1 = 1 by norm_num]
  rw [jsRoundQ]
  rw [floorQ_eq ((1 : ℚ) * 65535 + 1 / 2) 65535 (by norm_num) (by norm_num)]
  norm_num

/-- C5 amended: the stored UV word is the truncation of u*65535 reduced
modulo 2^16; for u in [0, 1] it equals floor(u*65535) (truncation, not
rounding) with no wrapping, and lies in [0, 65535].  Out-of-range inputs
wrap modulo 2^16 rather than clamp. -/
theorem C5_amended_uv_floor_no_wrap (u : ℚ) (h0 : 0 ≤ u) (h1 : u ≤ 1) :
    uvWord u = ⌊u * 65535⌋ ∧ 0 ≤ ⌊u * 65535⌋ ∧ ⌊u * 65535⌋ ≤ 65535 := by
  have hm0 : 0 ≤ u * 65535 := by nlinarith
  have hm1 : u * 65535 ≤ 65535 := by nlinarith
  have htr : jsTruncQ (u * 65535) = ⌊u * 65535⌋ := by simp [jsTruncQ, hm0]
  have hf0 : 0 ≤ ⌊u * 65535⌋ := Int.floor_nonneg.mpr hm0
  have hf1 : ⌊u * 65535⌋ ≤ 65535 := by
    calc ⌊u * 65535⌋ ≤ ⌊(65535 : ℚ)⌋ := Int.floor_le_floor hm1
    _ = 65535 := by norm_num
  refine ⟨?_, hf0, hf1⟩
  rw [uvWord, htr]
  exact Int.emod_eq_of_lt hf0 (by omega)

/-- Witness for the amended C5 at the concrete in-range input u = 1/7. -/
theorem C5_witness :
    uvWord (1 / 7) = ⌊(1 / 7 : ℚ) * 65535⌋ ∧
    0 ≤ ⌊(1 / 7 : ℚ) * 65535⌋ ∧ ⌊(1 / 7 : ℚ) * 65535⌋ ≤ 65535 :=
  C5_amended_uv_floor_no_wrap (1 / 7) (by norm_num) (by norm_num)

theorem encodeQTangent_eq (n t : V3) (t3 : ℝ) (bits : ℕ) :
    encodeQTangent n t t3 bits =
      if dot (cross t n) (if t3 > 0 then cross t n else cross n t) < 0 then
        quatScale (clampStep (encodeQTangentPreClamp n t) bits) (-1)
      else clampStep (encodeQTangentPreClamp n t) bits := rfl

theorem bias12_eq : (1 / (((1 <<< (12 - 1)) - 1 : ℕ) : ℝ) : ℝ) = 1 / 2047 := by
  norm_num [Nat.shiftLeft_eq]

theorem normSq_quatScale_neg (q : QuatR) : normSq (quatScale q (-1)) = normSq q := by
  simp only [normSq, quatScale]
  ring

/-- C7 amended: if the quaternion is unit after the normalize and
canonicalize steps, then after the bias clamp and the reflection flip its
squared norm is 1 - w^2 (1 - bias^2) when the clamp fired on pre-clamp
value w, and exactly 1 otherwise; so the final quaternion is unit exactly
when the clamp did not fire or fired with w = 0. -/
theorem C7_amended_norm_after_clamp (n t : V3) (t3 : ℝ)
    (hq : normSq (encodeQTangentPreClamp n t) = 1) :
    normSq (encodeQTangent n t t3 12) =
      1 - (if (encodeQTangentPreClamp n t).w < 1 / 2047 then
        (encodeQTangentPreClamp n t).w ^ 2 * (1 - (1 / 2047 : ℝ) ^ 2) else 0) := by
  have hcl : normSq (clampStep (encodeQTangentPreClamp n t) 12) =
      1 - (if (encodeQTangentPreClamp n t).w < 1 / 2047 then
        (encodeQTangentPreClamp n t).w ^ 2 * (1 - (1 / 2047 : ℝ) ^ 2) else 0) := by
    simp only [clampStep, bias12_eq]
    split_ifs with hw
    · have hf : Real.sqrt (1.0 - (1 / 2047 : ℝ) * (1 / 2047)) ^ 2
          = 1.0 - (1 / 2047 : ℝ) * (1 / 2047) := Real.sq_sqrt (by norm_num)
      simp only [normSq] at hq ⊢
      nlinarith [hf, hq]
    · simp only [normSq] at hq ⊢
      linarith
  rw [encodeQTangent_eq]
  by_cases hflip : dot (cross t n) (if t3 > 0 then cross t n else cross n t) < 0
  · rw [if_pos hflip, normSq_quatScale_neg, hcl]
  · rw [if_neg hflip, hcl]

theorem fromMat3_id : fromMat3 ⟨1, 0, 0, 0, 1, 0, 0, 0, 1⟩ = ⟨0, 0, 0, 1⟩ := by
  simp only [fromMat3]
  rw [if_pos (by norm_num : (1 : ℝ) + 1 + 1 > 0)]
  rw [show (1 : ℝ) + 1 + 1 + 1 = 2 ^ 2 by norm_num,
    Real.sqrt_sq (by norm_num : (0 : ℝ) ≤ 2)]
  norm_num

theorem quatNormalize_unitz : quatNormalize ⟨0, 0, 0, 1⟩ = ⟨0, 0, 0, 1⟩ := by
  simp only [quatNormalize]
  rw [show (0 : ℝ) * 0 + 0 * 0 + 0 * 0 + 1 * 1 = 1 by norm_num]
  rw [if_pos (by norm_num : (0 : ℝ) < 1), Real.sqrt_one]
  norm_num

theorem preClamp_id :
    encodeQTangentPreClamp ⟨0, 0, 1⟩ ⟨1, 0, 0⟩ = ⟨0, 0, 0, 1⟩ := by
  have hmat : toMat3 (V3.mk 1 0 0).x (V3.mk 1 0 0).y (V3.mk 1 0 0).z
      (cross ⟨0, 0, 1⟩ ⟨1, 0, 0⟩).x (cross ⟨0, 0, 1⟩ ⟨1, 0, 0⟩).y
      (cross ⟨0, 0, 1⟩ ⟨1, 0, 0⟩).z
      (V3.mk 0 0 1).x (V3.mk 0 0 1).y (V3.mk 0 0 1).z
      = ⟨1, 0, 0, 0, 1, 0, 0, 0, 1⟩ := by
    simp only [toMat3, cross]
    norm_num
  simp only [encodeQTangentPreClamp]
  rw [hmat, fromMat3_id, quatNormalize_unitz]
  rw [if_neg (by norm_num : ¬(QuatR.mk (0 : ℝ) 0 0 1).w < 0)]

/-- Witness for the amended C7 at the concrete orthonormal frame
n = (0,0,1), t = (1,0,0), whose quaternion is (0,0,0,1): the clamp does
not fire and the encoded quaternion is exactly unit. -/
theorem C7_witness :
    normSq (encodeQTangent ⟨0, 0, 1⟩ ⟨1, 0, 0⟩ 1 12) =
      1 - (if (encodeQTangentPreClamp ⟨0, 0, 1⟩ ⟨1, 0, 0⟩).w < 1 / 2047 then
        (encodeQTangentPreClamp ⟨0, 0, 1⟩ ⟨1, 0, 0⟩).w ^ 2 * (1 - (1 / 2047 : ℝ) ^ 2)
        else 0) :=
  C7_amended_norm_after_clamp ⟨0, 0, 1⟩ ⟨1, 0, 0⟩ 1
    (by rw [preClamp_id, normSq]; norm_num)

theorem fromMat3_C7 :
    fromMat3 ⟨-(70300024709119 / 70300058247169), 68669153280 / 70300058247169, 0,
      -(68669153280 / 70300058247169), -(70300024709119 / 70300058247169), 0,
      0, 0, 1⟩ = ⟨0, 0, 8384512 / 8384513, 4095 / 8384513⟩ := by
  simp only [fromMat3]
  rw [if_neg (by norm_num :
    ¬(-(70300024709119 / 70300058247169) + -(70300024709119 / 70300058247169)
      + (1 : ℝ) > 0))]
  rw [if_neg (by norm_num :
    ¬((-(70300024709119 / 70300058247169) : ℝ) > -(70300024709119 / 70300058247169)))]
  rw [if_pos (by norm_num :
    ((1 : ℝ) > -(70300024709119 / 70300058247169)))]
  rw [show (1 : ℝ) - -(70300024709119 / 70300058247169)
      - -(70300024709119 / 70300058247169) + 1
      = (2 * (8384512 / 8384513)) ^ 2 by norm_num]
  rw [Real.sqrt_sq (by norm_num : (0 : ℝ) ≤ 2 * (8384512 / 8384513))]
  norm_num

theorem quatNormalize_C7 :
    quatNormalize ⟨0, 0, 8384512 / 8384513, 4095 / 8384513⟩
      = ⟨0, 0, 8384512 / 8384513, 4095 / 8384513⟩ := by
  simp only [quatNormalize]
  rw [show (0 : ℝ) * 0 + 0 * 0 + 8384512 / 8384513 * (8384512 / 8384513)
      + 4095 / 8384513 * (4095 / 8384513) = 1 by norm_num]
  rw [if_pos (by norm_num : (0 : ℝ) < 1), Real.sqrt_one]
  norm_num

theorem preClamp_C7 :
    encodeQTangentPreClamp nC7 tC7
      = ⟨0, 0, 8384512 / 8384513, 4095 / 8384513⟩ := by
  have hmat : toMat3 tC7.x tC7.y tC7.z
      (cross nC7 tC7).x (cross nC7 tC7).y (cross nC7 tC7).z
      nC7.x nC7.y nC7.z
      = ⟨-(70300024709119 / 70300058247169), 68669153280 / 70300058247169, 0,
        -(68669153280 / 70300058247169), -(70300024709119 / 70300058247169), 0,
        0, 0, 1⟩ := by
    simp only [toMat3, cross, nC7, tC7]
    norm_num
  simp only [encodeQTangentPreClamp]
  rw [hmat, fromMat3_C7, quatNormalize_C7]
  rw [if_neg (by norm_num :
    ¬(QuatR.mk (0 : ℝ) 0 (8384512 / 8384513) (4095 / 8384513)).w < 0)]

/-- C7 counterexample: at the exactly orthonormal frame given by `nC7` and
`tC7` the frame quaternion has w = 4095/8384513, strictly between 0 and the
12-bit bias 1/2047, so the bias clamp fires and the encoded quaternion is
not unit: its squared norm is 1 - w^2 (1 - bias^2) < 1. -/
theorem C7_counterexample :
    dot nC7 nC7 = 1 ∧ dot tC7 tC7 = 1 ∧ dot nC7 tC7 = 0 ∧
    normSq (encodeQTangent nC7 tC7 1 12) ≠ 1 := by
  refine ⟨by simp only [dot, nC7]; norm_num, by simp only [dot, tC7]; norm_num,
    by simp only [dot, nC7, tC7]; norm_num, ?_⟩
  rw [encodeQTangent_eq]
  rw [if_neg (by
    rw [if_pos (by norm_num : (1 : ℝ) > 0)]
    simp only [dot, cross, nC7, tC7]
    norm_num)]
  rw [preClamp_C7]
  simp only [clampStep, bias12_eq]
  rw [if_pos (by norm_num :
    (QuatR.mk (0 : ℝ) 0 (8384512 / 8384513) (4095 / 8384513)).w < 1 / 2047)]
  have hf : Real.sqrt (1.0 - (1 / 2047 : ℝ) * (1 / 2047)) ^ 2
      = 1.0 - (1 / 2047 : ℝ) * (1 / 2047) := Real.sq_sqrt (by norm_num)
  simp only [normSq]
  nlinarith [hf]

theorem dot_comm (a b : V3) : dot a b = dot b a := by
  simp only [dot]
  ring

theorem cross_self_dot (t n : V3) :
    dot (cross t n) (cross t n) = dot t t * dot n n - dot t n ^ 2 := by
  simp only [dot, cross]
  ring

theorem dot_cross_swap (t n : V3) :
    dot (cross t n) (cross n t) = -dot (cross t n) (cross t n) := by
  simp only [dot, cross]
  ring

theorem normSq_quatNormalize_le_one (q : QuatR) : normSq (quatNormalize q) ≤ 1 := by
  simp only [quatNormalize, normSq]
  by_cases h : 0 < q.x * q.x + q.y * q.y + q.z * q.z + q.w * q.w
  · rw [if_pos h]
    have hs : Real.sqrt (q.x * q.x + q.y * q.y + q.z * q.z + q.w * q.w) ^ 2
        = q.x * q.x + q.y * q.y + q.z * q.z + q.w * q.w := Real.sq_sqrt h.le
    have hsp : 0 < Real.sqrt (q.x * q.x + q.y * q.y + q.z * q.z + q.w * q.w) :=
      Real.sqrt_pos.mpr h
    have hinv : (1 / Real.sqrt (q.x * q.x + q.y * q.y + q.z * q.z + q.w * q.w)) ^ 2
        = 1 / (q.x * q.x + q.y * q.y + q.z * q.z + q.w * q.w) := by
      rw [div_pow, one_pow, hs]
    have hexp : (q.x * (1 / Real.sqrt (q.x * q.x + q.y * q.y + q.z * q.z + q.w * q.w))) ^ 2
        + (q.y * (1 / Real.sqrt (q.x * q.x + q.y * q.y + q.z * q.z + q.w * q.w))) ^ 2
        + (q.z * (1 / Real.sqrt (q.x * q.x + q.y * q.y + q.z * q.z + q.w * q.w))) ^ 2
        + (q.w * (1 / Real.sqrt (q.x * q.x + q.y * q.y + q.z * q.z + q.w * q.w))) ^ 2
        = (q.x * q.x + q.y * q.y + q.z * q.z + q.w * q.w)
          * (1 / Real.sqrt (q.x * q.x + q.y * q.y + q.z * q.z + q.w * q.w)) ^ 2 := by
      ring
    rw [hexp, hinv, mul_one_div, div_self (ne_of_gt h)]
  · rw [if_neg h]
    have hz : q.x * q.x + q.y * q.y + q.z * q.z + q.w * q.w = 0 :=
      le_antisymm (not_lt.mp h)
        (by nlinarith [mul_self_nonneg q.x, mul_self_nonneg q.y,
          mul_self_nonneg q.z, mul_self_nonneg q.w])
    rw [hz]
    norm_num

theorem preClamp_w_nonneg (n t : V3) : 0 ≤ (encodeQTangentPreClamp n t).w := by
  simp only [encodeQTangentPreClamp]
  split_ifs with h
  · simp only [quatScale]
    nlinarith [h]
  · exact not_lt.mp h

theorem preClamp_normSq_le_one (n t : V3) :
    normSq (encodeQTangentPreClamp n t) ≤ 1 := by
  simp only [encodeQTangentPreClamp]
  split_ifs with h
  · rw [normSq_quatScale_neg]
    exact normSq_quatNormalize_le_one _
  · exact normSq_quatNormalize_le_one _

theorem clampStep_props (q : QuatR) (_hw : 0 ≤ q.w) (hn : normSq q ≤ 1) :
    1 / 2047 ≤ (clampStep q 12).w ∧ (clampStep q 12).w ≤ 1 ∧
    (clampStep q 12).x ^ 2 ≤ 1 ∧ (clampStep q 12).y ^ 2 ≤ 1 ∧
    (clampStep q 12).z ^ 2 ≤ 1 := by
  have hx2 : q.x ^ 2 ≤ 1 := by
    simp only [normSq] at hn
    nlinarith [sq_nonneg q.y, sq_nonneg q.z, sq_nonneg q.w]
  have hy2 : q.y ^ 2 ≤ 1 := by
    simp only [normSq] at hn
    nlinarith [sq_nonneg q.x, sq_nonneg q.z, sq_nonneg q.w]
  have hz2 : q.z ^ 2 ≤ 1 := by
    simp only [normSq] at hn
    nlinarith [sq_nonneg q.x, sq_nonneg q.y, sq_nonneg q.w]
  have hw2 : q.w ^ 2 ≤ 1 := by
    simp only [normSq] at hn
    nlinarith [sq_nonneg q.x, sq_nonneg q.y, sq_nonneg q.z]
  have hw1 : q.w ≤ 1 := by nlinarith [sq_nonneg (q.w - 1)]
  simp only [clampStep, bias12_eq]
  split_ifs with h
  · have hf : Real.sqrt (1.0 - (1 / 2047 : ℝ) * (1 / 2047)) ^ 2
        = 1.0 - (1 / 2047 : ℝ) * (1 / 2047) := Real.sq_sqrt (by norm_num)
    refine ⟨le_refl _, by norm_num, ?_, ?_, ?_⟩ <;> dsimp only <;>
      nlinarith [hf, hx2, hy2, hz2, sq_nonneg q.x, sq_nonneg q.y, sq_nonneg q.z]
  · exact ⟨not_lt.mp h, hw1, hx2, hy2, hz2⟩

theorem encodeQTangent_props (n t : V3) (t3 : ℝ)
    (hcross : 0 < dot (cross t n) (cross t n)) :
    (encodeQTangent n t t3 12).x ^ 2 ≤ 1 ∧ (encodeQTangent n t t3 12).y ^ 2 ≤ 1 ∧
    (encodeQTangent n t t3 12).z ^ 2 ≤ 1 ∧
    (t3 > 0 → 1 / 2047 ≤ (encodeQTangent n t t3 12).w ∧
      (encodeQTangent n t t3 12).w ≤ 1) ∧
    (¬t3 > 0 → (encodeQTangent n t t3 12).w ≤ -(1 / 2047) ∧
      -1 ≤ (encodeQTangent n t t3 12).w) := by
  have hcl := clampStep_props (encodeQTangentPreClamp n t)
    (preClamp_w_nonneg n t) (preClamp_normSq_le_one n t)
  rw [encodeQTangent_eq]
  by_cases ht3 : t3 > 0
  · rw [if_pos ht3, if_neg (not_lt.mpr hcross.le)]
    exact ⟨hcl.2.2.1, hcl.2.2.2.1, hcl.2.2.2.2,
      fun _ => ⟨hcl.1, hcl.2.1⟩, fun h => absurd ht3 h⟩
  · rw [if_neg ht3, if_pos (by rw [dot_cross_swap]; linarith)]
    simp only [quatScale]
    refine ⟨by nlinarith [hcl.2.2.1], by nlinarith [hcl.2.2.2.1],
      by nlinarith [hcl.2.2.2.2], fun h => absurd h ht3,
      fun _ => ⟨by nlinarith [hcl.1], by nlinarith [hcl.2.1]⟩⟩

theorem cast4095 : (((1 <<< 12) - 1 : ℕ) : ℝ) = 4095 := by
  norm_num [Nat.shiftLeft_eq]

theorem quantize12_pos_bounds (w : ℝ) (h1 : 1 / 2047 ≤ w) (h2 : w ≤ 1) :
    2048 ≤ quantizeSignedFloat w 12 ∧ quantizeSignedFloat w 12 ≤ 4095 := by
  simp only [quantizeSignedFloat, jsRoundR]
  rw [cast4095]
  constructor
  · apply Int.le_floor.mpr
    push_cast
    nlinarith
  · have hf := Int.floor_lt.mpr
      (show (w * 0.5 + 0.5) * 4095 + 1 / 2 < ((4096 : ℤ) : ℝ) by push_cast; nlinarith)
    omega

theorem quantize12_neg_bounds (w : ℝ) (h1 : w ≤ -(1 / 2047)) (h2 : -1 ≤ w) :
    0 ≤ quantizeSignedFloat w 12 ∧ quantizeSignedFloat w 12 ≤ 2047 := by
  simp only [quantizeSignedFloat, jsRoundR]
  rw [cast4095]
  constructor
  · apply Int.le_floor.mpr
    push_cast
    nlinarith
  · have hf := Int.floor_lt.mpr
      (show (w * 0.5 + 0.5) * 4095 + 1 / 2 < ((2048 : ℤ) : ℝ) by push_cast; nlinarith)
    omega

theorem quantize12_box (v : ℝ) (hv : v ^ 2 ≤ 1) :
    0 ≤ quantizeSignedFloat v 12 ∧ quantizeSignedFloat v 12 ≤ 4095 := by
  have hl : -1 ≤ v := by nlinarith [sq_nonneg (v + 1)]
  have hu : v ≤ 1 := by nlinarith [sq_nonneg (v - 1)]
  simp only [quantizeSignedFloat, jsRoundR]
  rw [cast4095]
  constructor
  · apply Int.le_floor.mpr
    push_cast
    nlinarith
  · have hf := Int.floor_lt.mpr
      (show (v * 0.5 + 0.5) * 4095 + 1 / 2 < ((4096 : ℤ) : ℝ) by push_cast; nlinarith)
    omega

theorem load_store_ext (a b c d : ℕ) :
    load4x12From3x16 (store4x12To3x16 a b c d).1 (store4x12To3x16 a b c d).2.1
      (store4x12To3x16 a b c d).2.2 = (a % 4096, b % 4096, c % 4096, d % 4096) :=
  load4x12_store4x12 a b c d

theorem unpack12_of_store (z0 z1 z2 z3 : ℤ)
    (h00 : 0 ≤ z0) (h01 : z0 ≤ 4095) (h10 : 0 ≤ z1) (h11 : z1 ≤ 4095)
    (h20 : 0 ≤ z2) (h21 : z2 ≤ 4095) (h30 : 0 ≤ z3) (h31 : z3 ≤ 4095) :
    unpackQuaternion12Bits
      (store4x12To3x16 (z0 % 4096).toNat (z1 % 4096).toNat (z2 % 4096).toNat
        (z3 % 4096).toNat).1
      (store4x12To3x16 (z0 % 4096).toNat (z1 % 4096).toNat (z2 % 4096).toNat
        (z3 % 4096).toNat).2.1
      (store4x12To3x16 (z0 % 4096).toNat (z1 % 4096).toNat (z2 % 4096).toNat
        (z3 % 4096).toNat).2.2
      = quatNormalize
        ⟨unquantizeSignedFloat ((z0.toNat : ℕ) : ℝ) 12,
         unquantizeSignedFloat ((z1.toNat : ℕ) : ℝ) 12,
         unquantizeSignedFloat ((z2.toNat : ℕ) : ℝ) 12,
         unquantizeSignedFloat ((z3.toNat : ℕ) : ℝ) 12⟩ := by
  have e0 : (z0 % 4096).toNat = z0.toNat := by omega
  have e1 : (z1 % 4096).toNat = z1.toNat := by omega
  have e2 : (z2 % 4096).toNat = z2.toNat := by omega
  have e3 : (z3 % 4096).toNat = z3.toNat := by omega
  simp only [unpackQuaternion12Bits, e0, e1, e2, e3, load_store_ext]
  rw [Nat.mod_eq_of_lt (show z0.toNat < 4096 by omega),
    Nat.mod_eq_of_lt (show z1.toNat < 4096 by omega),
    Nat.mod_eq_of_lt (show z2.toNat < 4096 by omega),
    Nat.mod_eq_of_lt (show z3.toNat < 4096 by omega)]

theorem quatNormalize_w_pos (q : QuatR) (h : 0 < q.w) : 0 < (quatNormalize q).w := by
  simp only [quatNormalize]
  have hlen : 0 < q.x * q.x + q.y * q.y + q.z * q.z + q.w * q.w := by
    nlinarith [mul_self_nonneg q.x, mul_self_nonneg q.y, mul_self_nonneg q.z]
  rw [if_pos hlen]
  exact mul_pos h (by
    have := Real.sqrt_pos.mpr hlen
    exact one_div_pos.mpr this)

theorem quatNormalize_w_neg (q : QuatR) (h : q.w < 0) : (quatNormalize q).w < 0 := by
  simp only [quatNormalize]
  have hlen : 0 < q.x * q.x + q.y * q.y + q.z * q.z + q.w * q.w := by
    nlinarith [mul_self_nonneg q.x, mul_self_nonneg q.y, mul_self_nonneg q.z]
  rw [if_pos hlen]
  exact mul_neg_of_neg_of_pos h (by
    have := Real.sqrt_pos.mpr hlen
    exact one_div_pos.mpr this)

theorem decode12_w_sign (w0 w1 w2 : ℕ) :
    (decodeQuaternion12Bits w0 w1 w2).2.w
      = if (unpackQuaternion12Bits w0 w1 w2).w > 0 then 1 else -1 := rfl

theorem unquantize12_pos (z : ℤ) (h1 : 2048 ≤ z) :
    0 < unquantizeSignedFloat ((z.toNat : ℕ) : ℝ) 12 := by
  simp only [unquantizeSignedFloat]
  rw [cast4095]
  have hc : ((z.toNat : ℕ) : ℝ) = ((z : ℤ) : ℝ) := by
    exact_mod_cast congrArg (fun k : ℤ => (k : ℝ)) (Int.toNat_of_nonneg (by omega))
  rw [hc]
  have : (2048 : ℝ) ≤ (z : ℝ) := by exact_mod_cast h1
  nlinarith

theorem unquantize12_neg (z : ℤ) (h0 : 0 ≤ z) (h1 : z ≤ 2047) :
    unquantizeSignedFloat ((z.toNat : ℕ) : ℝ) 12 < 0 := by
  simp only [unquantizeSignedFloat]
  rw [cast4095]
  have hc : ((z.toNat : ℕ) : ℝ) = ((z : ℤ) : ℝ) := by
    exact_mod_cast congrArg (fun k : ℤ => (k : ℝ)) (Int.toNat_of_nonneg h0)
  rw [hc]
  have : (z : ℝ) ≤ 2047 := by exact_mod_cast h1
  nlinarith

/-- C2: for every orthonormal pair (normal, tangent) and handedness value
t3 in {+1, -1}, decoding the three words produced by
`encodeQuaternion12Bits` returns a tangent whose fourth component is
exactly t3: the sign of the quaternion w survives quantization because the
bias clamp guarantees |w| at least 1/2047 before quantization.  (This holds
for all orthonormal inputs, so in particular whenever the bias clamp did
not need to flip the sign.) -/
theorem C2_quaternion_handedness_exact (n t : V3) (t3 : ℝ)
    (hn : dot n n = 1) (ht : dot t t = 1) (hnt : dot n t = 0)
    (h3 : t3 = 1 ∨ t3 = -1) :
    (decodeQuaternion12Bits (encodeQuaternion12Bits n t t3).1
      (encodeQuaternion12Bits n t t3).2.1
      (encodeQuaternion12Bits n t t3).2.2).2.w = t3 := by
  have hcross : 0 < dot (cross t n) (cross t n) := by
    rw [cross_self_dot, ht, hn, dot_comm t n, hnt]
    norm_num
  obtain ⟨hx2, hy2, hz2, hpos, hneg⟩ := encodeQTangent_props n t t3 hcross
  have henc : encodeQuaternion12Bits n t t3 =
      store4x12To3x16
        ((quantizeSignedFloat (encodeQTangent n t t3 12).x 12 % 4096).toNat)
        ((quantizeSignedFloat (encodeQTangent n t t3 12).y 12 % 4096).toNat)
        ((quantizeSignedFloat (encodeQTangent n t t3 12).z 12 % 4096).toNat)
        ((quantizeSignedFloat (encodeQTangent n t t3 12).w 12 % 4096).toNat) := rfl
  obtain ⟨hb00, hb01⟩ := quantize12_box _ hx2
  obtain ⟨hb10, hb11⟩ := quantize12_box _ hy2
  obtain ⟨hb20, hb21⟩ := quantize12_box _ hz2
  rw [henc, decode12_w_sign]
  rcases h3 with h3 | h3
  · have ht3 : t3 > 0 := by rw [h3]; norm_num
    obtain ⟨hw1, hw2⟩ := hpos ht3
    obtain ⟨hq0, hq1⟩ := quantize12_pos_bounds _ hw1 hw2
    rw [unpack12_of_store _ _ _ _ hb00 hb01 hb10 hb11 hb20 hb21
      (by omega) hq1]
    rw [if_pos (quatNormalize_w_pos _ (unquantize12_pos _ hq0))]
    exact h3.symm
  · have ht3 : ¬t3 > 0 := by rw [h3]; norm_num
    obtain ⟨hw1, hw2⟩ := hneg ht3
    obtain ⟨hq0, hq1⟩ := quantize12_neg_bounds _ hw1 hw2
    rw [unpack12_of_store _ _ _ _ hb00 hb01 hb10 hb11 hb20 hb21
      hq0 (by omega)]
    rw [if_neg (not_lt.mpr (le_of_lt (quatNormalize_w_neg _
      (unquantize12_neg _ hq0 hq1))))]
    exact h3.symm

/-- Witness for C2 at the concrete orthonormal frame n = (0,0,1),
t = (1,0,0) with handedness +1. -/
theorem C2_witness :
    (decodeQuaternion12Bits (encodeQuaternion12Bits ⟨0, 0, 1⟩ ⟨1, 0, 0⟩ 1).1
      (encodeQuaternion12Bits ⟨0, 0, 1⟩ ⟨1, 0, 0⟩ 1).2.1
      (encodeQuaternion12Bits ⟨0, 0, 1⟩ ⟨1, 0, 0⟩ 1).2.2).2.w = 1 :=
  C2_quaternion_handedness_exact ⟨0, 0, 1⟩ ⟨1, 0, 0⟩ 1
    (by simp only [dot]; norm_num) (by simp only [dot]; norm_num)
    (by simp only [dot]; norm_num) (Or.inl rfl)

theorem and_one_eq_mod_two (x : ℕ) : x &&& 1 = x % 2 :=
  Nat.and_one_is_mod x

theorem sign_bit_roundtrip (s qa : ℕ) (hs : s = 0 ∨ s = 1) (hqa : qa < 32768) :
    ((s <<< 15) ||| qa) >>> 15 &&& 1 = s := by
  rw [Nat.lor_comm, lor_shiftLeft_eq_add qa s 15 (by norm_num [hqa] : qa < 2 ^ 15)]
  rw [Nat.shiftRight_eq_div_pow, and_one_eq_mod_two]
  have h15 : (2 : ℕ) ^ 15 = 32768 := by norm_num
  rw [h15]
  omega

theorem encodeTangent_sign_bit (n t : V3) (s : ℝ) :
    (encodeTangent n t s) >>> 15 &&& 1 = if s > 0 then 1 else 0 := by
  simp only [encodeTangent]
  apply sign_bit_roundtrip
  · split_ifs <;> simp
  · omega

theorem decodeTangentOriginal_sign (e : ℕ) (n : V3) :
    (decodeTangentOriginal e n).2 = (e >>> 15) &&& 1 := rfl

theorem decodeAngleAsTangent16_sign (e : ℕ) (n : V3) :
    (decodeAngleAsTangent16 e n).2 = (((e >>> 15) &&& 1 : ℕ) : ℤ) * 2 - 1 := rfl

/-- C3: the angle-sign codec stores the sign verbatim in bit 15 and
recovers it exactly: for every unit normal, unit tangent and sign in
{+1, -1}, the handedness-valued decoder returns exactly the original sign,
and the bit-valued host decoder returns the original sign bit. -/
theorem C3_anglesign_sign_exact (n t : V3) (s : ℝ)
    (_hn : dot n n = 1) (_ht : dot t t = 1) (hs : s = 1 ∨ s = -1) :
    (((decodeAngleAsTangent16 (encodeTangent n t s) n).2 : ℤ) : ℝ) = s ∧
    (decodeTangentOriginal (encodeTangent n t s) n).2 = if s > 0 then 1 else 0 := by
  constructor
  · rw [decodeAngleAsTangent16_sign, encodeTangent_sign_bit]
    rcases hs with hs | hs
    · rw [hs, if_pos (by norm_num : (1 : ℝ) > 0)]
      norm_num
    · rw [hs, if_neg (by norm_num : ¬(-1 : ℝ) > 0)]
      norm_num
  · rw [decodeTangentOriginal_sign, encodeTangent_sign_bit]

/-- Witness for C3 at the concrete frame n = (0,0,1), t = (1,0,0) with
sign +1. -/
theorem C3_witness :
    (((decodeAngleAsTangent16 (encodeTangent ⟨0, 0, 1⟩ ⟨1, 0, 0⟩ 1) ⟨0, 0, 1⟩).2 : ℤ) : ℝ)
      = 1 ∧
    (decodeTangentOriginal (encodeTangent ⟨0, 0, 1⟩ ⟨1, 0, 0⟩ 1) ⟨0, 0, 1⟩).2
      = if (1 : ℝ) > 0 then 1 else 0 :=
  C3_anglesign_sign_exact ⟨0, 0, 1⟩ ⟨1, 0, 0⟩ 1
    (by simp only [dot]; norm_num) (by simp only [dot]; norm_num) (Or.inl rfl)

theorem vecNormalize_of_unit (n : V3) (hn : dot n n = 1) : vecNormalize n = n := by
  rcases n with ⟨a, b, c⟩
  simp only [dot] at hn
  simp only [vecNormalize]
  rw [hn, if_pos (by norm_num : (0 : ℝ) < 1), Real.sqrt_one]
  norm_num

/-- C9: the host exact-trig decoder and the shading-stage exact-trig
decoder agree for every 16-bit word and unit normal: same bitangent
construction, same angle reconstruction (bits/32767)*2pi - pi, same
rotation formula.  The host normalizes its normal copy; for a unit normal
that is the identity, and the shader constants denote the same reals (see
`shaderPI`). -/
theorem C9_host_shader_decoders_agree (e : ℕ) (n : V3) (hn : dot n n = 1) :
    (decodeTangentOriginal e n).1 = decodeTangentTrig e n := by
  have hangle : ((e &&& 0x7FFF : ℕ) : ℝ) / 32767 * (2 * Real.pi) - Real.pi
      = ((e &&& 0x7FFF : ℕ) : ℝ) * inv32767 * shaderTwoPI - shaderPI := by
    simp only [inv32767, shaderTwoPI, shaderPI]
    ring
  simp only [decodeTangentOriginal, decodeTangentTrig,
    vecNormalize_of_unit n hn, hangle]

/-- Witness for C9 at the concrete word 12345 and the unit normal
(0, 0, 1). -/
theorem C9_witness :
    (decodeTangentOriginal 12345 ⟨0, 0, 1⟩).1 = decodeTangentTrig 12345 ⟨0, 0, 1⟩ :=
  C9_host_shader_decoders_agree 12345 ⟨0, 0, 1⟩ (by simp only [dot]; norm_num)

theorem floorR_eq (q : ℝ) (z : ℤ) (h1 : (z : ℝ) ≤ q) (h2 : q < z + 1) : ⌊q⌋ = z :=
  Int.floor_eq_iff.mpr ⟨h1, h2⟩

theorem fastSin_pi_eval :
    fastSin Real.pi = Real.pi - 0.16666667 * Real.pi ^ 3
      + 0.008333333 * Real.pi ^ 5 - 0.000198413 * Real.pi ^ 7 := by
  simp only [fastSin, jsFmod]
  have hdiv : Real.pi / (2 * Real.pi) = 1 / 2 := by
    rw [div_eq_iff (by positivity)]
    ring
  rw [hdiv]
  have htr : jsTruncR (1 / 2 : ℝ) = 0 := by
    rw [jsTruncR, if_pos (by norm_num)]
    exact floorR_eq _ 0 (by norm_num) (by norm_num)
  rw [htr]
  have hx : Real.pi - 2 * Real.pi * ((0 : ℤ) : ℝ) = Real.pi := by push_cast; ring
  rw [hx]
  rw [if_neg (lt_irrefl Real.pi),
    if_neg (by nlinarith [Real.pi_pos] : ¬Real.pi < -Real.pi)]
  ring

/-- C8: the documented error bound of the fast sine polynomial is violated
at x = pi: the absolute difference between fastSin(pi) and sin(pi) exceeds
0.001 (it is about 0.0752), contradicting the source comment that the
maximum error on [-pi, pi] is below 0.001. -/
theorem C8_fastSin_error_exceeds_bound :
    0.001 < |fastSin Real.pi - Real.sin Real.pi| := by
  rw [fastSin_pi_eval, Real.sin_pi, sub_zero]
  have h1 := Real.pi_gt_d6
  have h2 := Real.pi_lt_d6
  have hπ0 : (0 : ℝ) < Real.pi := by linarith
  have p2u : Real.pi ^ 2 < 3.141593 ^ 2 := by nlinarith
  have p2l : 3.141592 ^ 2 < Real.pi ^ 2 := by nlinarith
  have p3u : Real.pi ^ 3 < 3.141593 ^ 3 := by nlinarith
  have p3l : 3.141592 ^ 3 < Real.pi ^ 3 := by nlinarith
  have p5u : Real.pi ^ 5 < 3.141593 ^ 5 := by nlinarith [p2u, p3u, p2l, p3l]
  have p5l : 3.141592 ^ 5 < Real.pi ^ 5 := by nlinarith [p2u, p3u, p2l, p3l]
  have p7u : Real.pi ^ 7 < 3.141593 ^ 7 := by nlinarith [p2u, p5u, p2l, p5l]
  have p7l : 3.141592 ^ 7 < Real.pi ^ 7 := by nlinarith [p2u, p5u, p2l, p5l]
  have hneg : Real.pi - 0.16666667 * Real.pi ^ 3 + 0.008333333 * Real.pi ^ 5
      - 0.000198413 * Real.pi ^ 7 < -0.001 := by nlinarith [h2, p3l, p5u, p7l]
  rw [abs_of_neg (by linarith)]
  linarith

end Quantize
